import Mathlib

/-!
Verification development for the RoutineStreamliner periodic-call coalescing
scheduler (src/routine_streamliner.hpp).

Modelling conventions.  Absolute times (std::chrono::steady_clock::time_point)
and durations are unbounded integers counting nanoseconds; none of the claims
depends on 64-bit overflow of the clock.  The identifier counter is a C++
unsigned int, modelled as a natural number reduced modulo 2 ^ 32 on every
increment, because wrap-around of that counter is observable through the add
return value.  The std::multimap _entries is modelled as a list of key/value
pairs sorted ascending by key, with insertion at the upper bound of the
equal-key range, exactly as std::multimap::insert places a new node.  The two
loops of the worker tick (the scan over the table and the throttling while
loop) can run forever for degenerate periods, so both are written with an
explicit fuel argument: a none result means the loop was still running when
the fuel ran out, and divergence of the real loop is expressed as returning
none for every fuel.
-/

namespace RoutineStreamliner

variable {α : Type}

/-- Line 18 of routine_streamliner.hpp: constexpr int STREAMLINER_WAIT_IF_EMPTY
= 500000000 nanoseconds, the initial sleep duration handed to the LoopingThread
in the constructor (line 48). -/
def STREAMLINER_WAIT_IF_EMPTY : Int := 500000000

/-- Modulus of the 32-bit C++ unsigned int identifier counter (line 32). -/
def uintMod : Nat := 2 ^ 32

/-- Lines 22-26: struct Subscription with the stored data, the repeat period
and the identifier assigned at registration. -/
structure Subscription (α : Type) where
  data : α
  period : Int
  identifier : Nat
deriving DecidableEq

/-- One node of the multimap _entries (line 33): the absolute deadline key
paired with the subscription the node owns. -/
abbrev Entry (α : Type) := Int × Subscription α

/-- Insertion into the multimap: std::multimap::insert places the new node at
the upper bound of its equal-key range, that is after every node whose key is
less than or equal to the new key and before the first strictly greater one. -/
def insertUB (e : Entry α) : List (Entry α) → List (Entry α)
  | [] => [e]
  | x :: xs => if x.1 ≤ e.1 then x :: insertUB e xs else e :: x :: xs

/-- Lines 62-64: the throttling loop, while (next < until) next += period,
started from the already once-advanced value next, with explicit fuel.  With
the loop condition false no fuel is needed; none means the fuel ran out with
the loop still running. -/
def throttleAdvance (u p : Int) : Nat → Int → Option Int
  | 0, next => if next < u then none else some next
  | fuel + 1, next => if next < u then throttleAdvance u p fuel (next + p) else some next

/-- Lines 61-64: the new deadline of an entry fired at key k with period p.
One period forward always (line 61); with throttling enabled the result is
then advanced by the while loop of lines 62-64. -/
def nextDeadline (thr : Bool) (u : Int) (fuel : Nat) (k p : Int) : Option Int :=
  if thr then throttleAdvance u p fuel (k + p) else some (k + p)

/-- State of the scan loop of lines 55-67.  The multimap at any moment is
visited ++ rest, sorted by key: visited holds reinserted nodes lying before
the iterator (only a reinsertion whose new key is strictly below the current
key lands there), rest holds the nodes the iterator has not yet passed, and
merged is the vector of pointers pushed so far (a pushed subscription stands
for the pointer to the data it owns). -/
structure ScanState (α : Type) where
  visited : List (Entry α)
  rest : List (Entry α)
  merged : List (Subscription α)
deriving DecidableEq

/-- Lines 55-67: the scan loop.  The iterator peeks the head of rest; a key
strictly above u (u is the until bound) breaks the loop; otherwise the node is
fired: its subscription is pushed onto merged, its new deadline is computed by
nextDeadline, the node is reinserted at the upper bound of the new key (which
is inside rest when the new key is at least the current key, hence can be
scanned again in the same pass, and inside visited otherwise) and the
iterator moves on.  Fuel bounds the number of iterations of both loops. -/
def scanGo (thr : Bool) (u : Int) (fuel : Nat) (st : ScanState α) : Option (ScanState α) :=
  match st.rest with
  | [] => some st
  | (k, s) :: rest1 =>
    if u < k then some st
    else
      match fuel with
      | 0 => none
      | fuel + 1 =>
        match nextDeadline thr u fuel k s.period with
        | none => none
        | some nxt =>
          if nxt < k then
            scanGo thr u fuel ⟨insertUB (nxt, s) st.visited, rest1, st.merged ++ [s]⟩
          else
            scanGo thr u fuel ⟨st.visited, insertUB (nxt, s) rest1, st.merged ++ [s]⟩

/-- The scan loop of lines 55-67 runs forever from the given state: no amount
of fuel completes it. -/
def ScanDiverges (thr : Bool) (u : Int) (st : ScanState α) : Prop :=
  ∀ fuel, scanGo thr u fuel st = none

/-- Fields of the RoutineStreamliner object (lines 27-34) that the claims are
about.  workerPeriod models the sleep duration of the owned LoopingThread.
Modelled from the spec: looping_thread/looping_thread.hpp is not part of the
sources; per the spec (section 4.1) the WorkerLoop sleeps its current duration
between ticks and setPeriod replaces that duration for subsequent sleeps. -/
structure Streamliner (α : Type) where
  throttling : Bool
  imprecisionPermitted : Int
  identifier : Nat
  entries : List (Entry α)
  workerPeriod : Int
deriving DecidableEq

/-- Lines 45-48: the constructor.  The merger callback itself is not stored;
a tick returns the batch it would be called with.  The LoopingThread is
created with initial sleep STREAMLINER_WAIT_IF_EMPTY. -/
def mkStreamliner (α : Type) (imprecisionPermitted : Int) (throttling : Bool) : Streamliner α :=
  ⟨throttling, imprecisionPermitted, 0, [], STREAMLINER_WAIT_IF_EMPTY⟩

/-- Lines 93-98 (and the identical rvalue overload, lines 107-112): add inserts
a new subscription keyed at the current time and returns identifier++, the
post-increment of the 32-bit unsigned counter. -/
def add (st : Streamliner α) (now : Int) (data : α) (period : Int) : Streamliner α × Nat :=
  (⟨st.throttling, st.imprecisionPermitted, (st.identifier + 1) % uintMod,
    insertUB (now, ⟨data, period, st.identifier⟩) st.entries, st.workerPeriod⟩,
   st.identifier)

/-- Lines 122-127: the removal scan.  Returns the table with the first node in
key order whose subscription carries the given identifier erased, or none when
no node matches. -/
def eraseFirst (ident : Nat) : List (Entry α) → Option (List (Entry α))
  | [] => none
  | e :: es =>
    if e.2.identifier = ident then some es
    else Option.map (fun l => e :: l) (eraseFirst ident es)

/-- Lines 119-129: remove.  On a match the node is erased and the method
returns normally (first component true); otherwise std::logic_error is thrown
after the loop, with no mutation having taken place (first component false,
object unchanged). -/
def remove (st : Streamliner α) (ident : Nat) : Bool × Streamliner α :=
  match eraseFirst ident st.entries with
  | some l => (true, ⟨st.throttling, st.imprecisionPermitted, st.identifier, l, st.workerPeriod⟩)
  | none => (false, st)

/-- Lines 136-138: setThrottling stores the flag (with no locking, see the
event traces below). -/
def setThrottling (st : Streamliner α) (b : Bool) : Streamliner α :=
  ⟨b, st.imprecisionPermitted, st.identifier, st.entries, st.workerPeriod⟩

/-- Lines 48-76: one tick of the worker lambda, started at absolute time
start.  until is start + _imprecisionPermitted (line 50); the scan of lines
55-67 runs from the head of the table; the merger is invoked exactly when the
batch is nonempty (lines 69-70) and the batch is returned; afterwards, only if
the table is nonempty, setPeriod(begin key - start) reprograms the worker
(lines 72-75) - with an empty table the sleep duration is left as it was.
A none result means the scan did not finish within the fuel. -/
def tick (st : Streamliner α) (start : Int) (fuel : Nat) :
    Option (Streamliner α × List (Subscription α)) :=
  match scanGo st.throttling (start + st.imprecisionPermitted) fuel ⟨[], st.entries, []⟩ with
  | none => none
  | some res =>
    some (⟨st.throttling, st.imprecisionPermitted, st.identifier,
           res.visited ++ res.rest,
           match res.visited ++ res.rest with
           | [] => st.workerPeriod
           | e :: _ => e.1 - start⟩,
          res.merged)

/-- The tick of lines 48-76 runs forever from the given state and start time:
no amount of fuel completes it. -/
def TickDiverges (st : Streamliner α) (start : Int) : Prop :=
  ∀ fuel, tick st start fuel = none

/-- Lines 69-70: number of merger invocations performed by a completed pass
that collected the batch b. -/
def mergerCalls (b : List (Subscription α)) : Nat :=
  if b.isEmpty then 0 else 1

/-- The entries list is sorted ascending by deadline key, the representation
invariant of the std::multimap. -/
abbrev SortedByKey (l : List (Entry α)) : Prop :=
  l.Pairwise (fun a b => a.1 ≤ b.1)

/-- The three pieces of shared mutable state named by the spec (section 5):
the deadline table, the identifier counter and the throttling flag. -/
inductive SharedField where
  | entriesF
  | identifierF
  | throttlingF
deriving DecidableEq

/-- Atomic events of one public operation, in program order: mutex acquisition
and release of _lock, reads and writes of the shared fields, the merger
callback invocation, and sleeping in the worker. -/
inductive Ev where
  | lockEv
  | unlockEv
  | readF (f : SharedField)
  | writeF (f : SharedField)
  | mergerCall
  | sleepEv
deriving DecidableEq

/-- Event trace of the worker tick lambda, lines 49-75: lock_guard acquires
_lock (line 54); the scan iterates _entries (reads and writes, lines 55-67)
and reads _throttling (line 62); the guard releases the lock at the end of the
inner block (line 68); the merger runs outside the lock (line 70); then lines
72 and 74 read _entries again, after the guard was destroyed, so outside the
lock. -/
def tickTrace : List Ev :=
  [Ev.lockEv, Ev.readF SharedField.entriesF, Ev.readF SharedField.throttlingF,
   Ev.writeF SharedField.entriesF, Ev.unlockEv, Ev.mergerCall,
   Ev.readF SharedField.entriesF, Ev.readF SharedField.entriesF]

/-- Event trace of add, lines 93-98: lock_guard (line 95), insertion into
_entries reading the identifier counter (line 96), then identifier++ (line
97), then unlock at scope end. -/
def addTrace : List Ev :=
  [Ev.lockEv, Ev.readF SharedField.identifierF, Ev.writeF SharedField.entriesF,
   Ev.readF SharedField.identifierF, Ev.writeF SharedField.identifierF, Ev.unlockEv]

/-- Event trace of remove, lines 119-129: lock_guard (line 121), scan of
_entries (lines 122-123), erase (line 124), unlock at scope end. -/
def removeTrace : List Ev :=
  [Ev.lockEv, Ev.readF SharedField.entriesF, Ev.writeF SharedField.entriesF, Ev.unlockEv]

/-- Event trace of setThrottling, lines 136-138: the method writes _throttling
directly, there is no lock_guard in its body. -/
def setThrottlingTrace : List Ev :=
  [Ev.writeF SharedField.throttlingF]

/-- Checks that every read or write of a shared field in the trace happens at
positive lock depth, starting from the given depth. -/
def accessesLocked : Nat → List Ev → Bool
  | _, [] => true
  | d, Ev.lockEv :: t => accessesLocked (d + 1) t
  | d, Ev.unlockEv :: t => accessesLocked (d - 1) t
  | d, Ev.readF _ :: t => decide (0 < d) && accessesLocked d t
  | d, Ev.writeF _ :: t => decide (0 < d) && accessesLocked d t
  | d, Ev.mergerCall :: t => accessesLocked d t
  | d, Ev.sleepEv :: t => accessesLocked d t

/-- Checks that the merger callback and sleeping happen only at lock depth
zero, that is with the lock not held. -/
def lockFreeAt : Nat → List Ev → Bool
  | _, [] => true
  | d, Ev.lockEv :: t => lockFreeAt (d + 1) t
  | d, Ev.unlockEv :: t => lockFreeAt (d - 1) t
  | d, Ev.mergerCall :: t => decide (d = 0) && lockFreeAt d t
  | d, Ev.sleepEv :: t => decide (d = 0) && lockFreeAt d t
  | d, Ev.readF _ :: t => lockFreeAt d t
  | d, Ev.writeF _ :: t => lockFreeAt d t

/-- A sequence of add calls: each input is the current time, the data and the
period of one call; returns the final state and the identifiers returned by
the calls, in order. -/
def addSeq (st : Streamliner α) : List (Int × α × Int) → Streamliner α × List Nat
  | [] => (st, [])
  | (now, d, p) :: rest =>
    let r1 := add st now d p
    let r2 := addSeq r1.1 rest
    (r2.1, r1.2 :: r2.2)

/-- The state of a freshly constructed scheduler after n identical add calls;
the identifier returned by the call number n (counting from zero) is the
identifier field of this state. -/
def addNTimes : Nat → Streamliner Nat
  | 0 => mkStreamliner Nat 300 false
  | n + 1 => (add (addNTimes n) 0 0 0).1

theorem insertUB_perm (e : Entry α) (l : List (Entry α)) :
    List.Perm (insertUB e l) (e :: l) := by
  induction l with
  | nil => simp [insertUB]
  | cons x xs ih =>
    by_cases h : x.1 ≤ e.1
    · simpa [insertUB, h] using ((ih.cons x).trans (List.Perm.swap e x xs))
    · simp [insertUB, h]

theorem mem_insertUB {a e : Entry α} {l : List (Entry α)} :
    a ∈ insertUB e l ↔ a = e ∨ a ∈ l := by
  rw [(insertUB_perm e l).mem_iff]
  simp

theorem insertUB_sorted {e : Entry α} {l : List (Entry α)} (h : SortedByKey l) :
    SortedByKey (insertUB e l) := by
  induction l with
  | nil => simp [insertUB, SortedByKey]
  | cons x xs ih =>
    rw [SortedByKey, List.pairwise_cons] at h
    by_cases hx : x.1 ≤ e.1
    · rw [insertUB, if_pos hx, SortedByKey, List.pairwise_cons]
      refine ⟨fun b hb => ?_, ih h.2⟩
      rcases mem_insertUB.1 hb with hb | hb
      · exact hb ▸ hx
      · exact h.1 b hb
    · rw [insertUB, if_neg hx, SortedByKey, List.pairwise_cons]
      refine ⟨fun b hb => ?_, List.pairwise_cons.2 h⟩
      have hex : e.1 ≤ x.1 := le_of_lt (lt_of_not_le hx)
      rcases List.mem_cons.1 hb with hb | hb
      · exact hb ▸ hex
      · exact le_trans hex (h.1 b hb)

theorem scanGo_nil (thr : Bool) (u : Int) (fuel : Nat) (v : List (Entry α))
    (m : List (Subscription α)) :
    scanGo thr u fuel ⟨v, [], m⟩ = some ⟨v, [], m⟩ := by
  rw [scanGo]

theorem scanGo_break {u k : Int} (thr : Bool) (fuel : Nat) {s : Subscription α}
    {v r1 : List (Entry α)} {m : List (Subscription α)} (h : u < k) :
    scanGo thr u fuel ⟨v, (k, s) :: r1, m⟩ = some ⟨v, (k, s) :: r1, m⟩ := by
  rw [scanGo]
  simp [h]

theorem scanGo_zero {u k : Int} (thr : Bool) {s : Subscription α}
    {v r1 : List (Entry α)} {m : List (Subscription α)} (h : ¬ u < k) :
    scanGo thr u 0 ⟨v, (k, s) :: r1, m⟩ = none := by
  rw [scanGo]
  simp [h]

theorem scanGo_succ {u k : Int} {thr : Bool} {fuel : Nat} {s : Subscription α}
    {v r1 : List (Entry α)} {m : List (Subscription α)} (h : ¬ u < k) :
    scanGo thr u (fuel + 1) ⟨v, (k, s) :: r1, m⟩ =
      match nextDeadline thr u fuel k s.period with
      | none => none
      | some nxt =>
        if nxt < k then scanGo thr u fuel ⟨insertUB (nxt, s) v, r1, m ++ [s]⟩
        else scanGo thr u fuel ⟨v, insertUB (nxt, s) r1, m ++ [s]⟩ := by
  rw [scanGo]
  simp [h]

theorem scanGo_entries_perm {thr : Bool} {u : Int} :
    ∀ (fuel : Nat) (v r : List (Entry α)) (m : List (Subscription α)) (res : ScanState α),
      scanGo thr u fuel ⟨v, r, m⟩ = some res →
      List.Perm ((res.visited ++ res.rest).map Prod.snd) ((v ++ r).map Prod.snd) := by
  intro fuel
  induction fuel with
  | zero =>
    intro v r m res h
    match r with
    | [] =>
      rw [scanGo_nil] at h
      obtain rfl := (Option.some.inj h).symm
      exact List.Perm.refl _
    | (k, s) :: r1 =>
      by_cases hk : u < k
      · rw [scanGo_break thr 0 hk] at h
        obtain rfl := (Option.some.inj h).symm
        exact List.Perm.refl _
      · rw [scanGo_zero thr hk] at h
        exact absurd h (by simp)
  | succ fuel ih =>
    intro v r m res h
    match r with
    | [] =>
      rw [scanGo_nil] at h
      obtain rfl := (Option.some.inj h).symm
      exact List.Perm.refl _
    | (k, s) :: r1 =>
      by_cases hk : u < k
      · rw [scanGo_break thr (fuel + 1) hk] at h
        obtain rfl := (Option.some.inj h).symm
        exact List.Perm.refl _
      · rw [scanGo_succ hk] at h
        cases hnd : nextDeadline thr u fuel k s.period with
        | none => rw [hnd] at h; dsimp only at h; exact absurd h (by simp)
        | some nxt =>
          rw [hnd] at h
          dsimp only at h
          by_cases hin : nxt < k
          · rw [if_pos hin] at h
            have P := ((insertUB_perm (nxt, s) v).append_right r1).map Prod.snd
            have Q : List.Perm ((((nxt, s) :: v) ++ r1).map Prod.snd)
                ((v ++ (k, s) :: r1).map Prod.snd) := by
              simp only [List.cons_append, List.map_cons, List.map_append]
              exact List.perm_middle.symm
            exact (ih _ _ _ _ h).trans (P.trans Q)
          · rw [if_neg hin] at h
            have P := (List.Perm.append_left v (insertUB_perm (nxt, s) r1)).map Prod.snd
            simpa using (ih _ _ _ _ h).trans P

theorem scanGo_count_le [DecidableEq α] {thr : Bool} {u : Int} :
    ∀ (fuel : Nat) (v r : List (Entry α)) (m : List (Subscription α)) (res : ScanState α),
      scanGo thr u fuel ⟨v, r, m⟩ = some res →
      ∀ s2 : Subscription α, m.count s2 ≤ res.merged.count s2 := by
  intro fuel
  induction fuel with
  | zero =>
    intro v r m res h s2
    match r with
    | [] =>
      rw [scanGo_nil] at h
      obtain rfl := (Option.some.inj h).symm
      exact le_refl _
    | (k, s) :: r1 =>
      by_cases hk : u < k
      · rw [scanGo_break thr 0 hk] at h
        obtain rfl := (Option.some.inj h).symm
        exact le_refl _
      · rw [scanGo_zero thr hk] at h
        exact absurd h (by simp)
  | succ fuel ih =>
    intro v r m res h s2
    match r with
    | [] =>
      rw [scanGo_nil] at h
      obtain rfl := (Option.some.inj h).symm
      exact le_refl _
    | (k, s) :: r1 =>
      by_cases hk : u < k
      · rw [scanGo_break thr (fuel + 1) hk] at h
        obtain rfl := (Option.some.inj h).symm
        exact le_refl _
      · rw [scanGo_succ hk] at h
        cases hnd : nextDeadline thr u fuel k s.period with
        | none => rw [hnd] at h; dsimp only at h; exact absurd h (by simp)
        | some nxt =>
          rw [hnd] at h
          dsimp only at h
          by_cases hin : nxt < k
          · rw [if_pos hin] at h
            calc m.count s2 ≤ (m ++ [s]).count s2 := by simp [List.count_append]
            _ ≤ res.merged.count s2 := ih _ _ _ _ h s2
          · rw [if_neg hin] at h
            calc m.count s2 ≤ (m ++ [s]).count s2 := by simp [List.count_append]
            _ ≤ res.merged.count s2 := ih _ _ _ _ h s2

theorem scanGo_merged_from_rest {thr : Bool} {u : Int} :
    ∀ (fuel : Nat) (v r : List (Entry α)) (m : List (Subscription α)) (res : ScanState α),
      scanGo thr u fuel ⟨v, r, m⟩ = some res →
      ∀ x ∈ res.merged, x ∈ m ∨ x ∈ r.map Prod.snd := by
  intro fuel
  induction fuel with
  | zero =>
    intro v r m res h x hx
    match r with
    | [] =>
      rw [scanGo_nil] at h
      obtain rfl := (Option.some.inj h).symm
      exact Or.inl hx
    | (k, s) :: r1 =>
      by_cases hk : u < k
      · rw [scanGo_break thr 0 hk] at h
        obtain rfl := (Option.some.inj h).symm
        exact Or.inl hx
      · rw [scanGo_zero thr hk] at h
        exact absurd h (by simp)
  | succ fuel ih =>
    intro v r m res h x hx
    match r with
    | [] =>
      rw [scanGo_nil] at h
      obtain rfl := (Option.some.inj h).symm
      exact Or.inl hx
    | (k, s) :: r1 =>
      by_cases hk : u < k
      · rw [scanGo_break thr (fuel + 1) hk] at h
        obtain rfl := (Option.some.inj h).symm
        exact Or.inl hx
      · rw [scanGo_succ hk] at h
        cases hnd : nextDeadline thr u fuel k s.period with
        | none => rw [hnd] at h; dsimp only at h; exact absurd h (by simp)
        | some nxt =>
          rw [hnd] at h
          dsimp only at h
          by_cases hin : nxt < k
          · rw [if_pos hin] at h
            rcases ih _ _ _ _ h x hx with hx2 | hx2
            · rcases List.mem_append.1 hx2 with hx3 | hx3
              · exact Or.inl hx3
              · simp only [List.mem_singleton] at hx3
                exact Or.inr (by simp [hx3])
            · exact Or.inr (by simp [hx2])
          · rw [if_neg hin] at h
            rcases ih _ _ _ _ h x hx with hx2 | hx2
            · rcases List.mem_append.1 hx2 with hx3 | hx3
              · exact Or.inl hx3
              · simp only [List.mem_singleton] at hx3
                exact Or.inr (by simp [hx3])
            · have hx3 := ((insertUB_perm (nxt, s) r1).map Prod.snd).mem_iff.1 hx2
              simp only [List.map_cons, List.mem_cons] at hx3
              refine Or.inr ?_
              simp only [List.map_cons, List.mem_cons]
              exact hx3

theorem scanGo_processes_due [DecidableEq α] {thr : Bool} {u : Int} :
    ∀ (fuel : Nat) (v r : List (Entry α)) (m : List (Subscription α)) (res : ScanState α),
      SortedByKey r → scanGo thr u fuel ⟨v, r, m⟩ = some res →
      ∀ e ∈ r, e.1 ≤ u → m.count e.2 < res.merged.count e.2 := by
  intro fuel
  induction fuel with
  | zero =>
    intro v r m res hsort h e he hdue
    match r with
    | [] => exact absurd he (List.not_mem_nil e)
    | (k, s) :: r1 =>
      by_cases hk : u < k
      · exfalso
        rcases List.mem_cons.1 he with rfl | he1
        · exact absurd hdue (not_le.2 hk)
        · rw [SortedByKey, List.pairwise_cons] at hsort
          exact absurd hdue (not_le.2 (lt_of_lt_of_le hk (hsort.1 e he1)))
      · rw [scanGo_zero thr hk] at h
        exact absurd h (by simp)
  | succ fuel ih =>
    intro v r m res hsort h e he hdue
    match r with
    | [] => exact absurd he (List.not_mem_nil e)
    | (k, s) :: r1 =>
      by_cases hk : u < k
      · exfalso
        rcases List.mem_cons.1 he with rfl | he1
        · exact absurd hdue (not_le.2 hk)
        · rw [SortedByKey, List.pairwise_cons] at hsort
          exact absurd hdue (not_le.2 (lt_of_lt_of_le hk (hsort.1 e he1)))
      · rw [scanGo_succ hk] at h
        rw [SortedByKey, List.pairwise_cons] at hsort
        cases hnd : nextDeadline thr u fuel k s.period with
        | none => rw [hnd] at h; dsimp only at h; exact absurd h (by simp)
        | some nxt =>
          rw [hnd] at h
          dsimp only at h
          rcases List.mem_cons.1 he with rfl | he1
          · show m.count s < res.merged.count s
            have h1 : (m ++ [s]).count s = m.count s + 1 := by
              simp [List.count_append]
            by_cases hin : nxt < k
            · rw [if_pos hin] at h
              have h2 := scanGo_count_le fuel _ _ _ _ h s
              omega
            · rw [if_neg hin] at h
              have h2 := scanGo_count_le fuel _ _ _ _ h s
              omega
          · by_cases hin : nxt < k
            · rw [if_pos hin] at h
              have h2 := ih _ _ _ _ hsort.2 h e he1 hdue
              have h3 : m.count e.2 ≤ (m ++ [s]).count e.2 := by
                simp [List.count_append]
              omega
            · rw [if_neg hin] at h
              have hsort2 : SortedByKey (insertUB (nxt, s) r1) := insertUB_sorted hsort.2
              have hmem : e ∈ insertUB (nxt, s) r1 := mem_insertUB.2 (Or.inr he1)
              have h2 := ih _ _ _ _ hsort2 h e hmem hdue
              have h3 : m.count e.2 ≤ (m ++ [s]).count e.2 := by
                simp [List.count_append]
              omega

theorem throttleAdvance_spec {u p : Int} :
    ∀ (fuel : Nat) (next r : Int), throttleAdvance u p fuel next = some r →
      u ≤ r ∧ ∃ i : Nat, r = next + (i : Int) * p ∧
        ∀ j : Nat, j < i → next + (j : Int) * p < u := by
  intro fuel
  induction fuel with
  | zero =>
    intro next r h
    by_cases hn : next < u
    · simp [throttleAdvance, hn] at h
    · simp only [throttleAdvance, if_neg hn] at h
      obtain rfl := (Option.some.inj h).symm
      exact ⟨not_lt.1 hn, 0, by simp, fun j hj => absurd hj (Nat.not_lt_zero j)⟩
  | succ fuel ih =>
    intro next r h
    by_cases hn : next < u
    · simp only [throttleAdvance, if_pos hn] at h
      obtain ⟨hu, i, hr, hmin⟩ := ih (next + p) r h
      refine ⟨hu, i + 1, ?_, ?_⟩
      · rw [hr]; push_cast; ring
      · intro j hj
        cases j with
        | zero => simpa using hn
        | succ j1 =>
          have hlt := hmin j1 (by omega)
          have heq : next + ((j1 + 1 : Nat) : Int) * p = next + p + (j1 : Int) * p := by
            push_cast; ring
          rw [heq]
          exact hlt
    · simp only [throttleAdvance, if_neg hn] at h
      obtain rfl := (Option.some.inj h).symm
      exact ⟨not_lt.1 hn, 0, by simp, fun j hj => absurd hj (Nat.not_lt_zero j)⟩

theorem throttleAdvance_total {u p : Int} (hp : 0 < p) :
    ∀ (n : Nat) (next : Int), (u - next).toNat ≤ n →
      ∃ r, throttleAdvance u p n next = some r := by
  intro n
  induction n with
  | zero =>
    intro next hn
    have hnu : ¬ next < u := by omega
    exact ⟨next, by simp [throttleAdvance, hnu]⟩
  | succ n ih =>
    intro next hn
    by_cases hlt : next < u
    · obtain ⟨r, hr⟩ := ih (next + p) (by omega)
      exact ⟨r, by simp only [throttleAdvance, if_pos hlt]; exact hr⟩
    · exact ⟨next, by simp [throttleAdvance, hlt]⟩

theorem eraseFirst_none_iff {ident : Nat} (l : List (Entry α)) :
    eraseFirst ident l = none ↔ ∀ e ∈ l, e.2.identifier ≠ ident := by
  induction l with
  | nil => simp [eraseFirst]
  | cons e es ih =>
    by_cases h : e.2.identifier = ident
    · simp [eraseFirst, h]
    · simp [eraseFirst, h, ih]

theorem eraseFirst_some {ident : Nat} :
    ∀ (l l2 : List (Entry α)), eraseFirst ident l = some l2 →
      ∃ l1 e l3, l = l1 ++ e :: l3 ∧ e.2.identifier = ident ∧ l2 = l1 ++ l3 ∧
        ∀ x ∈ l1, x.2.identifier ≠ ident := by
  intro l
  induction l with
  | nil => intro l2 h; simp [eraseFirst] at h
  | cons e es ih =>
    intro l2 h
    by_cases he : e.2.identifier = ident
    · simp only [eraseFirst, if_pos he] at h
      obtain rfl := Option.some.inj h
      exact ⟨[], e, es, by simp, he, by simp, by simp⟩
    · simp only [eraseFirst, if_neg he] at h
      cases hes : eraseFirst ident es with
      | none => rw [hes] at h; simp at h
      | some es2 =>
        rw [hes] at h
        simp only [Option.map_some'] at h
        obtain rfl := Option.some.inj h
        obtain ⟨l1, e1, l3, rfl, hid, rfl, hfresh⟩ := ih es2 hes
        refine ⟨e :: l1, e1, l3, by simp, hid, by simp, fun x hx => ?_⟩
        rcases List.mem_cons.1 hx with rfl | hx1
        · exact he
        · exact hfresh x hx1

theorem eraseFirst_insertUB {ident : Nat} {e : Entry α} (he : e.2.identifier = ident) :
    ∀ l : List (Entry α), (∀ x ∈ l, x.2.identifier ≠ ident) →
      eraseFirst ident (insertUB e l) = some l := by
  intro l
  induction l with
  | nil => intro _; simp [insertUB, eraseFirst, he]
  | cons x xs ih =>
    intro hfresh
    by_cases hx : x.1 ≤ e.1
    · have hxid : x.2.identifier ≠ ident := hfresh x (by simp)
      simp only [insertUB, if_pos hx, eraseFirst, if_neg hxid]
      rw [ih (fun y hy => hfresh y (by simp [hy]))]
      rfl
    · simp [insertUB, if_neg hx, eraseFirst, he]

theorem addNTimes_identifier : ∀ n : Nat, (addNTimes n).identifier = n % uintMod := by
  intro n
  induction n with
  | zero => simp [addNTimes, mkStreamliner]
  | succ n ih =>
    show ((addNTimes n).identifier + 1) % uintMod = (n + 1) % uintMod
    rw [ih, Nat.mod_add_mod]

theorem addSeq_ids {β : Type} :
    ∀ (l : List (Int × β × Int)) (st : Streamliner β), st.identifier < uintMod →
      (addSeq st l).2 = (List.range l.length).map (fun i => (st.identifier + i) % uintMod) := by
  intro l
  induction l with
  | nil => intro st _; simp [addSeq]
  | cons x xs ih =>
    intro st h
    obtain ⟨now, d, p⟩ := x
    have hlt : ((st.identifier + 1) % uintMod) < uintMod :=
      Nat.mod_lt _ (by norm_num [uintMod])
    show st.identifier :: (addSeq (add st now d p).1 xs).2 = _
    rw [ih _ hlt]
    simp only [List.length_cons]
    rw [List.range_succ_eq_map]
    simp only [List.map_cons, List.map_map, Function.comp]
    congr 1
    · simp [Nat.mod_eq_of_lt h]
    · refine List.map_congr_left (fun i _ => ?_)
      show ((st.identifier + 1) % uintMod + i) % uintMod = (st.identifier + (i + 1)) % uintMod
      rw [Nat.mod_add_mod]
      congr 1
      omega

theorem add_returns_identifier (st : Streamliner α) (now : Int) (d : α) (p : Int) :
    (add st now d p).2 = st.identifier := rfl

theorem tick_batch_mem {st : Streamliner α} {start : Int} {fuel : Nat}
    {st2 : Streamliner α} {batch : List (Subscription α)}
    (h : tick st start fuel = some (st2, batch)) :
    ∀ x ∈ batch, x ∈ st.entries.map Prod.snd := by
  rw [tick] at h
  cases hs : scanGo st.throttling (start + st.imprecisionPermitted) fuel ⟨[], st.entries, []⟩ with
  | none => rw [hs] at h; dsimp only at h; exact absurd h (by simp)
  | some res =>
    rw [hs] at h
    dsimp only at h
    injection Option.some.inj h with ha hb
    subst hb
    intro x hx
    rcases scanGo_merged_from_rest fuel [] st.entries [] res hs x hx with h1 | h1
    · exact absurd h1 (List.not_mem_nil x)
    · exact h1

theorem tick_entries_perm {st : Streamliner α} {start : Int} {fuel : Nat}
    {st2 : Streamliner α} {batch : List (Subscription α)}
    (h : tick st start fuel = some (st2, batch)) :
    List.Perm (st2.entries.map Prod.snd) (st.entries.map Prod.snd) := by
  rw [tick] at h
  cases hs : scanGo st.throttling (start + st.imprecisionPermitted) fuel ⟨[], st.entries, []⟩ with
  | none => rw [hs] at h; dsimp only at h; exact absurd h (by simp)
  | some res =>
    rw [hs] at h
    dsimp only at h
    injection Option.some.inj h with ha hb
    subst ha
    simpa using scanGo_entries_perm fuel [] st.entries [] res hs

theorem scanGo_negative_periods {u : Int} :
    ∀ (r v : List (Entry α)) (m : List (Subscription α)),
      (∀ e ∈ r, e.2.period < 0) → (∀ e ∈ v, e.1 ≤ u) →
      ∃ res : ScanState α, scanGo false u r.length ⟨v, r, m⟩ = some res ∧
        ∀ e ∈ res.visited, e.1 ≤ u := by
  intro r
  induction r with
  | nil =>
    intro v m _ hv
    exact ⟨⟨v, [], m⟩, scanGo_nil false u 0 v m, hv⟩
  | cons e0 r1 ih =>
    intro v m hneg hv
    obtain ⟨k, s⟩ := e0
    by_cases hk : u < k
    · exact ⟨⟨v, (k, s) :: r1, m⟩, scanGo_break false _ hk, hv⟩
    · have hsp : s.period < 0 := hneg (k, s) (by simp)
      have hnd : nextDeadline false u r1.length k s.period = some (k + s.period) := rfl
      have hin : k + s.period < k := by omega
      have hstep : scanGo false u (r1.length + 1) ⟨v, (k, s) :: r1, m⟩ =
          scanGo false u r1.length ⟨insertUB (k + s.period, s) v, r1, m ++ [s]⟩ := by
        rw [scanGo_succ hk, hnd]
        dsimp only
        rw [if_pos hin]
      have hv2 : ∀ e ∈ insertUB (k + s.period, s) v, e.1 ≤ u := by
        intro e he
        rcases mem_insertUB.1 he with rfl | he1
        · show k + s.period ≤ u
          omega
        · exact hv e he1
      obtain ⟨res, hres, hresv⟩ :=
        ih (insertUB (k + s.period, s) v) (m ++ [s]) (fun e he => hneg e (by simp [he])) hv2
      refine ⟨res, ?_, hresv⟩
      show scanGo false u ((k, s) :: r1).length ⟨v, (k, s) :: r1, m⟩ = some res
      rw [List.length_cons, hstep]
      exact hres

/-- C9: the claim says every access to the shared mutable state (deadline
table, identifier counter, throttling flag) by add, remove, setThrottling and
the worker tick happens under the single exclusive lock, and that the lock is
never held across the merger invocation or sleeping.  Auditing the event
traces of the source: add and remove do access the state only under the lock,
and the tick calls the merger outside the lock; but setThrottling writes the
throttling flag with no lock at all (lines 136-138 contain no lock_guard),
and the tick reads the deadline table at lines 72 and 74 after the lock_guard
of line 54 was already destroyed at line 68.  This contradicts the claim and
the header comment of the source (line 10, internal operations are said to be
mutex-controlled), so the code, not the claim, is at fault. -/
theorem C9_lock_discipline_audit :
    accessesLocked 0 setThrottlingTrace = false ∧
    accessesLocked 0 tickTrace = false ∧
    accessesLocked 0 addTrace = true ∧
    accessesLocked 0 removeTrace = true ∧
    lockFreeAt 0 tickTrace = true ∧
    lockFreeAt 0 addTrace = true ∧
    lockFreeAt 0 removeTrace = true ∧
    lockFreeAt 0 setThrottlingTrace = true := by
  decide

/-- C10: when remove fails because no registration matches the identifier,
the scheduler state is left completely unchanged - the whole object, in
particular the deadline table and the identifier counter - and the failure
happens exactly on a table with no matching entry. -/
theorem C10_remove_error_atomic (st : Streamliner α) (ident : Nat)
    (h : (remove st ident).1 = false) :
    (remove st ident).2 = st ∧
    (remove st ident).2.entries = st.entries ∧
    (remove st ident).2.identifier = st.identifier ∧
    ∀ e ∈ st.entries, e.2.identifier ≠ ident := by
  have hn : eraseFirst ident st.entries = none := by
    cases he : eraseFirst ident st.entries with
    | none => rfl
    | some l => rw [remove] at h; rw [he] at h; dsimp only at h; exact absurd h (by simp)
  refine ⟨?_, ?_, ?_, (eraseFirst_none_iff st.entries).1 hn⟩ <;> simp [remove, hn]

/-- C10 witness: removing the unknown identifier 9 from a table holding only
identifier 3 fails and changes nothing. -/
theorem C10_witness :
    (remove (⟨false, 3, 5, [((0 : Int), ⟨7, 5, 3⟩)], 100⟩ : Streamliner Nat) 9).2 =
      (⟨false, 3, 5, [((0 : Int), ⟨7, 5, 3⟩)], 100⟩ : Streamliner Nat) ∧
    (remove (⟨false, 3, 5, [((0 : Int), ⟨7, 5, 3⟩)], 100⟩ : Streamliner Nat) 9).2.entries =
      (⟨false, 3, 5, [((0 : Int), ⟨7, 5, 3⟩)], 100⟩ : Streamliner Nat).entries ∧
    (remove (⟨false, 3, 5, [((0 : Int), ⟨7, 5, 3⟩)], 100⟩ : Streamliner Nat) 9).2.identifier =
      (⟨false, 3, 5, [((0 : Int), ⟨7, 5, 3⟩)], 100⟩ : Streamliner Nat).identifier ∧
    ∀ e ∈ (⟨false, 3, 5, [((0 : Int), ⟨7, 5, 3⟩)], 100⟩ : Streamliner Nat).entries,
      e.2.identifier ≠ 9 :=
  C10_remove_error_atomic _ 9 (by decide)

/-- C5 refuted as stated: the identifier counter is a 32-bit unsigned int, so
in a sequence of 2 ^ 32 + 1 add calls on one scheduler the very first add and
the add number 2 ^ 32 both return identifier 0 - the counter wraps and
identifiers are reused. -/
theorem C5_counterexample :
    (add (addNTimes 0) 0 0 0).2 = 0 ∧ (add (addNTimes uintMod) 0 0 0).2 = 0 := by
  constructor
  · rfl
  · rw [add_returns_identifier, addNTimes_identifier]
    exact Nat.mod_self uintMod

/-- C5 (amended): the identifiers returned by a sequence of add calls on one
scheduler are pairwise distinct as long as the sequence has at most 2 ^ 32
calls; the 32-bit counter wraps after that and identifiers repeat.  The
counter is advanced only by add - remove and the tick never touch it - so
interleaved removals do not affect this. -/
theorem C5_identifier_distinct {β : Type} (imp : Int) (thr : Bool)
    (l : List (Int × β × Int)) (h : l.length ≤ uintMod) :
    ((addSeq (mkStreamliner β imp thr) l).2).Nodup := by
  rw [addSeq_ids l _ (by norm_num [mkStreamliner, uintMod])]
  have h2 : ∀ i ∈ List.range l.length,
      ((mkStreamliner β imp thr).identifier + i) % uintMod = i := by
    intro i hi
    have hi2 : i < uintMod := lt_of_lt_of_le (List.mem_range.1 hi) h
    simp [mkStreamliner, Nat.mod_eq_of_lt hi2]
  have h3 : (List.range l.length).map
      (fun i => ((mkStreamliner β imp thr).identifier + i) % uintMod) =
      (List.range l.length).map (fun i => i) := List.map_congr_left h2
  rw [h3]
  simpa using List.nodup_range l.length

/-- C5 witness: two add calls on a fresh scheduler return distinct
identifiers. -/
theorem C5_witness :
    ((addSeq (mkStreamliner Nat 300 false) [(0, 1, 5), (2, 3, 4)]).2).Nodup :=
  C5_identifier_distinct 300 false [(0, 1, 5), (2, 3, 4)] (by decide)

/-- C4 (amended): after a completed tick pass, if the table is nonempty the
worker sleep duration is reprogrammed to the smallest remaining deadline
minus the pass start; if the table is empty the sleep duration is simply left
as it was - the code does not reprogram it, so it does not fall back to the
wait-if-empty constant as the claim states (that constant is only the initial
sleep duration set at construction). -/
theorem C4_sleep_reprogramming (st : Streamliner α) (start : Int) (fuel : Nat)
    (st2 : Streamliner α) (batch : List (Subscription α))
    (h : tick st start fuel = some (st2, batch)) :
    st2.workerPeriod = (match st2.entries with
      | [] => st.workerPeriod
      | e :: _ => e.1 - start) := by
  rw [tick] at h
  cases hs : scanGo st.throttling (start + st.imprecisionPermitted) fuel ⟨[], st.entries, []⟩ with
  | none => rw [hs] at h; dsimp only at h; exact absurd h (by simp)
  | some res =>
    rw [hs] at h
    dsimp only at h
    injection Option.some.inj h with ha hb
    subst ha
    rfl

/-- C4 refuted as stated: construct a scheduler with slack 3, add one item of
period 100 at time 0, run one pass at time 0 (which reprograms the sleep to
100), remove the item, and run a pass at time 50 on the now-empty table: the
sleep duration stays 100 instead of falling back to the wait-if-empty
duration of 500000000 ns, so a subsequently added item can be delayed by the
stale sleep. -/
theorem C4_counterexample :
    add (mkStreamliner Nat 3 false) 0 7 100 =
      (⟨false, 3, 1, [((0 : Int), ⟨7, 100, 0⟩)], STREAMLINER_WAIT_IF_EMPTY⟩, 0) ∧
    tick (⟨false, 3, 1, [((0 : Int), ⟨7, 100, 0⟩)], STREAMLINER_WAIT_IF_EMPTY⟩ : Streamliner Nat) 0 5 =
      some (⟨false, 3, 1, [((100 : Int), ⟨7, 100, 0⟩)], 100⟩, [⟨7, 100, 0⟩]) ∧
    remove (⟨false, 3, 1, [((100 : Int), ⟨7, 100, 0⟩)], 100⟩ : Streamliner Nat) 0 =
      (true, ⟨false, 3, 1, [], 100⟩) ∧
    tick (⟨false, 3, 1, [], 100⟩ : Streamliner Nat) 50 5 =
      some (⟨false, 3, 1, [], 100⟩, []) ∧
    (⟨false, 3, 1, [], 100⟩ : Streamliner Nat).workerPeriod ≠ STREAMLINER_WAIT_IF_EMPTY := by
  refine ⟨?_, ?_, ?_, ?_, ?_⟩ <;> decide

/-- C4 witness: the reprogramming equation evaluated on the nonempty-table
pass of the counterexample scenario. -/
theorem C4_witness :
    (⟨false, 3, 1, [((100 : Int), ⟨7, 100, 0⟩)], 100⟩ : Streamliner Nat).workerPeriod =
      (match (⟨false, 3, 1, [((100 : Int), ⟨7, 100, 0⟩)], 100⟩ : Streamliner Nat).entries with
        | [] => (⟨false, 3, 1, [((0 : Int), ⟨7, 100, 0⟩)],
                  STREAMLINER_WAIT_IF_EMPTY⟩ : Streamliner Nat).workerPeriod
        | e :: _ => e.1 - 0) :=
  C4_sleep_reprogramming
    ⟨false, 3, 1, [((0 : Int), ⟨7, 100, 0⟩)], STREAMLINER_WAIT_IF_EMPTY⟩ 0 5
    ⟨false, 3, 1, [((100 : Int), ⟨7, 100, 0⟩)], 100⟩ [⟨7, 100, 0⟩] (by decide)

/-- C3: in a completed tick pass the merge callback is invoked exactly once
(with the full batch) when at least one registered item is due within the
batching window, and not at all when nothing is due; a pass with nothing due
also leaves the deadline table exactly unchanged. -/
theorem C3_empty_batch_no_callback [DecidableEq α] (st : Streamliner α) (start : Int)
    (fuel : Nat) (st2 : Streamliner α) (batch : List (Subscription α))
    (hsort : SortedByKey st.entries)
    (h : tick st start fuel = some (st2, batch)) :
    (batch = [] ↔ ∀ e ∈ st.entries, start + st.imprecisionPermitted < e.1) ∧
    (batch = [] → st2.entries = st.entries ∧ mergerCalls batch = 0) ∧
    (batch ≠ [] → mergerCalls batch = 1) := by
  rw [tick] at h
  cases hs : scanGo st.throttling (start + st.imprecisionPermitted) fuel ⟨[], st.entries, []⟩ with
  | none => rw [hs] at h; dsimp only at h; exact absurd h (by simp)
  | some res =>
    rw [hs] at h
    dsimp only at h
    injection Option.some.inj h with ha hb
    subst ha
    subst hb
    have hdue : res.merged = [] → ∀ e ∈ st.entries, start + st.imprecisionPermitted < e.1 := by
      intro hm e he
      by_contra hnd
      have hc := scanGo_processes_due fuel [] st.entries [] res hsort hs e he (not_lt.1 hnd)
      rw [hm] at hc
      simp at hc
    have hnodue : (∀ e ∈ st.entries, start + st.imprecisionPermitted < e.1) →
        res = ⟨[], st.entries, []⟩ := by
      intro hall
      cases hent : st.entries with
      | nil =>
        rw [hent] at hs
        rw [scanGo_nil] at hs
        exact (Option.some.inj hs).symm
      | cons e0 r1 =>
        obtain ⟨k, s⟩ := e0
        have hk : start + st.imprecisionPermitted < k := hall (k, s) (by rw [hent]; simp)
        rw [hent, scanGo_break st.throttling fuel hk] at hs
        exact (Option.some.inj hs).symm
    refine ⟨⟨fun hm => hdue hm, fun hall => ?_⟩, fun hm => ⟨?_, ?_⟩, fun hm => ?_⟩
    · rw [hnodue hall]
    · show res.visited ++ res.rest = st.entries
      rw [hnodue (hdue hm)]
      simp
    · simp [mergerCalls, hm]
    · rw [mergerCalls, if_neg]
      simp [hm]


/-- C3 witness: a pass at time 0 with slack 3 over a table whose only
deadline is 10 collects nothing, calls the merger zero times and leaves the
table unchanged. -/
theorem C3_witness :
    (([] : List (Subscription Nat)) = [] ↔
      ∀ e ∈ [((10 : Int), (⟨7, 5, 0⟩ : Subscription Nat))], (0 : Int) + 3 < e.1) ∧
    (([] : List (Subscription Nat)) = [] →
      [((10 : Int), (⟨7, 5, 0⟩ : Subscription Nat))] =
        [((10 : Int), (⟨7, 5, 0⟩ : Subscription Nat))] ∧
      mergerCalls ([] : List (Subscription Nat)) = 0) ∧
    (([] : List (Subscription Nat)) ≠ [] → mergerCalls ([] : List (Subscription Nat)) = 1) :=
  C3_empty_batch_no_callback ⟨false, 3, 1, [((10 : Int), ⟨7, 5, 0⟩)], 99⟩ 0 2
    ⟨false, 3, 1, [((10 : Int), ⟨7, 5, 0⟩)], 10⟩ [] (by decide) (by decide)

/-- C8: every live registration appears exactly once in the table: a
completed tick pass permutes the multiset of stored subscriptions (each fired
node is erased and immediately reinserted, at a key that is its computed next
deadline), add inserts exactly the one new registration keyed at the call
time, and a successful remove erases exactly the first matching node and
nothing else. -/
theorem C8_table_invariant (st : Streamliner α) (start : Int) (fuel : Nat)
    (st2 : Streamliner α) (batch : List (Subscription α))
    (st3 : Streamliner α) (ident : Nat) (st4 : Streamliner α) (now : Int) (d : α) (p : Int)
    (h1 : tick st start fuel = some (st2, batch))
    (h2 : (remove st3 ident).1 = true) :
    List.Perm (st2.entries.map Prod.snd) (st.entries.map Prod.snd) ∧
    (add st4 now d p).1.entries = insertUB (now, ⟨d, p, st4.identifier⟩) st4.entries ∧
    List.Perm ((add st4 now d p).1.entries.map Prod.snd)
      ((⟨d, p, st4.identifier⟩ : Subscription α) :: st4.entries.map Prod.snd) ∧
    ∃ l1 e l3, st3.entries = l1 ++ e :: l3 ∧ e.2.identifier = ident ∧
      (remove st3 ident).2.entries = l1 ++ l3 ∧ ∀ x ∈ l1, x.2.identifier ≠ ident := by
  refine ⟨tick_entries_perm h1, rfl, ?_, ?_⟩
  · have hp := (insertUB_perm ((now, ⟨d, p, st4.identifier⟩) : Entry α) st4.entries).map Prod.snd
    simpa using hp
  · cases he : eraseFirst ident st3.entries with
    | none =>
      rw [remove] at h2
      rw [he] at h2
      dsimp only at h2
      exact absurd h2 (by simp)
    | some l =>
      obtain ⟨l1, e, l3, heq, hid, hl2, hfresh⟩ := eraseFirst_some st3.entries l he
      have hre : (remove st3 ident).2.entries = l := by
        rw [remove, he]
      exact ⟨l1, e, l3, heq, hid, by rw [hre, hl2], hfresh⟩

/-- C8 witness: the invariant evaluated on one fired-and-reinserted pass, one
add and one successful remove, all at concrete inputs. -/
theorem C8_witness :
    List.Perm ([((10 : Int), (⟨1, 10, 0⟩ : Subscription Nat))].map Prod.snd)
      ([((0 : Int), (⟨1, 10, 0⟩ : Subscription Nat))].map Prod.snd) ∧
    (add (⟨false, 1, 2, [], 9⟩ : Streamliner Nat) 5 8 6).1.entries =
      insertUB ((5 : Int), ⟨8, 6, 2⟩) [] ∧
    List.Perm ((add (⟨false, 1, 2, [], 9⟩ : Streamliner Nat) 5 8 6).1.entries.map Prod.snd)
      [(⟨8, 6, 2⟩ : Subscription Nat)] ∧
    ∃ l1 e l3, [((2 : Int), (⟨4, 6, 3⟩ : Subscription Nat))] = l1 ++ e :: l3 ∧
      e.2.identifier = 3 ∧
      (remove (⟨true, 5, 9, [((2 : Int), ⟨4, 6, 3⟩)], 8⟩ : Streamliner Nat) 3).2.entries =
        l1 ++ l3 ∧
      ∀ x ∈ l1, x.2.identifier ≠ 3 :=
  C8_table_invariant ⟨false, 3, 0, [((0 : Int), ⟨1, 10, 0⟩)], 7⟩ 0 3
    ⟨false, 3, 0, [((10 : Int), ⟨1, 10, 0⟩)], 10⟩ [⟨1, 10, 0⟩]
    ⟨true, 5, 9, [((2 : Int), ⟨4, 6, 3⟩)], 8⟩ 3
    ⟨false, 1, 2, [], 9⟩ 5 8 6 (by decide) (by decide)

/-- C6: remove erases the matching registration when one exists - removing an
identifier just returned by add (an identifier fresh for the table, which the
counter invariant guarantees in use) restores the table to exactly what it
was before the add, so the removed item is absent from every later batch; and
remove fails with the logic error exactly when no registration carries the
identifier. -/
theorem C6_remove_correct (st : Streamliner α) (now : Int) (d : α) (p : Int)
    (st5 : Streamliner α) (j : Nat) (start2 : Int) (fuel2 : Nat)
    (st6 : Streamliner α) (batch2 : List (Subscription α))
    (hfresh : ∀ e ∈ st.entries, e.2.identifier ≠ st.identifier)
    (h3 : tick (remove (add st now d p).1 (add st now d p).2).2 start2 fuel2 =
      some (st6, batch2)) :
    (remove (add st now d p).1 (add st now d p).2).1 = true ∧
    (remove (add st now d p).1 (add st now d p).2).2.entries = st.entries ∧
    ((remove st5 j).1 = false ↔ ∀ e ∈ st5.entries, e.2.identifier ≠ j) ∧
    (⟨d, p, st.identifier⟩ : Subscription α) ∉ batch2 := by
  have herase : eraseFirst (add st now d p).2 ((add st now d p).1.entries) = some st.entries := by
    show eraseFirst st.identifier (insertUB (now, ⟨d, p, st.identifier⟩) st.entries) =
      some st.entries
    exact @eraseFirst_insertUB α st.identifier (now, ⟨d, p, st.identifier⟩) rfl st.entries hfresh
  have hrem1 : (remove (add st now d p).1 (add st now d p).2).1 = true := by
    rw [remove, herase]
  have hrem2 : (remove (add st now d p).1 (add st now d p).2).2.entries = st.entries := by
    rw [remove, herase]
  refine ⟨hrem1, hrem2, ⟨?_, ?_⟩, ?_⟩
  · intro hf
    cases he : eraseFirst j st5.entries with
    | none => exact (eraseFirst_none_iff st5.entries).1 he
    | some l =>
      rw [remove] at hf
      rw [he] at hf
      dsimp only at hf
      exact absurd hf (by simp)
  · intro hall
    have hn := (eraseFirst_none_iff st5.entries).2 hall
    rw [remove, hn]
  · intro hmem
    have hin := tick_batch_mem h3 _ hmem
    rw [hrem2] at hin
    obtain ⟨e, he, heq⟩ := List.mem_map.1 hin
    exact hfresh e he (congrArg Subscription.identifier heq)

/-- C6 witness: add then remove on a fresh scheduler succeeds, restores the
empty table, the next pass delivers nothing, and removing from a table with
no matching identifier reports the logic error. -/
theorem C6_witness :
    (remove (add (mkStreamliner Nat 3 false) 0 7 5).1 (add (mkStreamliner Nat 3 false) 0 7 5).2).1 = true ∧
    (remove (add (mkStreamliner Nat 3 false) 0 7 5).1 (add (mkStreamliner Nat 3 false) 0 7 5).2).2.entries = [] ∧
    ((remove (⟨false, 2, 4, [((1 : Int), ⟨9, 9, 2⟩)], 6⟩ : Streamliner Nat) 7).1 = false ↔
      ∀ e ∈ [((1 : Int), (⟨9, 9, 2⟩ : Subscription Nat))], e.2.identifier ≠ 7) ∧
    (⟨7, 5, 0⟩ : Subscription Nat) ∉ ([] : List (Subscription Nat)) :=
  C6_remove_correct (mkStreamliner Nat 3 false) 0 7 5
    ⟨false, 2, 4, [((1 : Int), ⟨9, 9, 2⟩)], 6⟩ 7 0 3
    ⟨false, 3, 1, [], STREAMLINER_WAIT_IF_EMPTY⟩ [] (by decide) (by decide)

/-- C1 refuted as stated: throttling on, slack 3, one item of period 1 fired
at deadline 0.  The throttling loop stops at next = 3 = until, and the scan
processes every key up to and including until, so the reinserted node is
fired once more in the very same pass: the batch contains the item twice.
The claim that the item cannot reappear within the same batching window is
therefore false in the boundary case where the collapsed deadline lands
exactly on until. -/
theorem C1_counterexample :
    tick (⟨true, 3, 1, [((0 : Int), ⟨0, 1, 0⟩)], STREAMLINER_WAIT_IF_EMPTY⟩ : Streamliner Nat)
        0 10 =
      some (⟨true, 3, 1, [((4 : Int), ⟨0, 1, 0⟩)], 4⟩, [⟨0, 1, 0⟩, ⟨0, 1, 0⟩]) ∧
    1 < List.count (⟨0, 1, 0⟩ : Subscription Nat) [⟨0, 1, 0⟩, ⟨0, 1, 0⟩] :=
  ⟨by decide, by decide⟩

/-- C1 (amended): with throttling enabled and a positive period, the new
deadline of a registration fired at deadline k is the least k + j * period
with j ≥ 1 that is ≥ until, and the throttling loop terminates with enough
fuel.  In particular the new deadline is ≥ until, so the item can be due
again inside the same pass only in the boundary case where the new deadline
equals until exactly (the window is inclusive of until). -/
theorem C1_throttled_deadline (u k p : Int) (hp : 0 < p) (hk : k ≤ u) :
    ∃ fuel n, nextDeadline true u fuel k p = some n ∧ u ≤ n ∧
      (∃ j : Nat, 1 ≤ j ∧ n = k + (j : Int) * p ∧
        ∀ j2 : Nat, 1 ≤ j2 → j2 < j → k + (j2 : Int) * p < u) ∧
      (n ≤ u → n = u) := by
  obtain ⟨r, hr⟩ := throttleAdvance_total hp ((u - (k + p)).toNat) (k + p) (le_refl _)
  obtain ⟨hu, i, hri, hmin⟩ := throttleAdvance_spec _ _ _ hr
  refine ⟨(u - (k + p)).toNat, r, ?_, hu, ⟨i + 1, by omega, ?_, ?_⟩,
    fun hle => le_antisymm hle hu⟩
  · rw [nextDeadline]
    simp only [if_pos rfl]
    exact hr
  · rw [hri]
    push_cast
    ring
  · intro j2 h1 h2
    obtain ⟨j3, rfl⟩ : ∃ j3, j2 = j3 + 1 := ⟨j2 - 1, by omega⟩
    have hlt := hmin j3 (by omega)
    have heq : k + ((j3 + 1 : Nat) : Int) * p = (k + p) + (j3 : Int) * p := by
      push_cast
      ring
    rw [heq]
    exact hlt

/-- C1 witness: until 5, fired deadline 0, period 2: the loop yields 6, the
least 0 + 2j that reaches 5, with j = 3. -/
theorem C1_witness :
    ∃ fuel n, nextDeadline true 5 fuel 0 2 = some n ∧ (5 : Int) ≤ n ∧
      (∃ j : Nat, 1 ≤ j ∧ n = 0 + (j : Int) * 2 ∧
        ∀ j2 : Nat, 1 ≤ j2 → j2 < j → (0 : Int) + (j2 : Int) * 2 < 5) ∧
      (n ≤ 5 → n = 5) :=
  C1_throttled_deadline 5 0 2 (by decide) (by decide)

/-- C2 refuted as stated: throttling off, slack 3, one item of period 1 fired
at deadline 0.  Each firing reinserts the node at the old key plus one period,
which is ahead of the iterator and still inside the window, so the node is
fired again and again in the same pass: the single merge invocation of that
pass receives four pointers to the same item, not at most one. -/
theorem C2_counterexample :
    tick (⟨false, 3, 1, [((0 : Int), ⟨0, 1, 0⟩)], STREAMLINER_WAIT_IF_EMPTY⟩ : Streamliner Nat)
        0 10 =
      some (⟨false, 3, 1, [((4 : Int), ⟨0, 1, 0⟩)], 4⟩,
        [⟨0, 1, 0⟩, ⟨0, 1, 0⟩, ⟨0, 1, 0⟩, ⟨0, 1, 0⟩]) ∧
    1 < List.count (⟨0, 1, 0⟩ : Subscription Nat) [⟨0, 1, 0⟩, ⟨0, 1, 0⟩, ⟨0, 1, 0⟩, ⟨0, 1, 0⟩] :=
  ⟨by decide, by decide⟩

/-- C2 (amended): with throttling disabled a fired node is reinserted at
exactly its fired deadline plus one period; but when that new deadline
undershoots (or equals) until and the period is nonnegative, the node lands
ahead of the iterator and is fired again within the same pass, so one
registered item can contribute two or more pointers to a single merge
invocation - it does not wait for a later pass. -/
theorem C2_unthrottled_deadline [DecidableEq α] (u k : Int) (s : Subscription α)
    (v r : List (Entry α)) (m : List (Subscription α)) (fuel : Nat) (res : ScanState α)
    (hk : ¬ u < k) (hp : 0 ≤ s.period)
    (hsort : SortedByKey ((k, s) :: r))
    (h : scanGo false u (fuel + 1) ⟨v, (k, s) :: r, m⟩ = some res)
    (hagain : k + s.period ≤ u) :
    scanGo false u (fuel + 1) ⟨v, (k, s) :: r, m⟩ =
      scanGo false u fuel ⟨v, insertUB (k + s.period, s) r, m ++ [s]⟩ ∧
    m.count s + 2 ≤ res.merged.count s := by
  have hnd : nextDeadline false u fuel k s.period = some (k + s.period) := rfl
  have hnin : ¬ (k + s.period < k) := by omega
  have hstep : scanGo false u (fuel + 1) ⟨v, (k, s) :: r, m⟩ =
      scanGo false u fuel ⟨v, insertUB (k + s.period, s) r, m ++ [s]⟩ := by
    rw [scanGo_succ hk, hnd]
    dsimp only
    rw [if_neg hnin]
  refine ⟨hstep, ?_⟩
  rw [hstep] at h
  have hsort2 : SortedByKey (insertUB (k + s.period, s) r) := by
    rw [SortedByKey, List.pairwise_cons] at hsort
    exact insertUB_sorted hsort.2
  have hmem : ((k + s.period, s) : Entry α) ∈ insertUB (k + s.period, s) r :=
    mem_insertUB.2 (Or.inl rfl)
  have h2 : (m ++ [s]).count s < res.merged.count s :=
    scanGo_processes_due fuel v _ _ res hsort2 h (k + s.period, s) hmem hagain
  have h3 : (m ++ [s]).count s = m.count s + 1 := by
    simp [List.count_append]
  omega

/-- C2 witness: the one-step equation and the double delivery evaluated on
the counterexample scenario (until 3, period 1, fired at 0). -/
theorem C2_witness :
    scanGo false 3 (8 + 1) ⟨[], [((0 : Int), ⟨0, 1, 0⟩)], ([] : List (Subscription Nat))⟩ =
      scanGo false 3 8 ⟨[], insertUB ((0 : Int) + (⟨0, 1, 0⟩ : Subscription Nat).period,
        ⟨0, 1, 0⟩) [], [] ++ [⟨0, 1, 0⟩]⟩ ∧
    List.count (⟨0, 1, 0⟩ : Subscription Nat) [] + 2 ≤
      List.count (⟨0, 1, 0⟩ : Subscription Nat) [⟨0, 1, 0⟩, ⟨0, 1, 0⟩, ⟨0, 1, 0⟩, ⟨0, 1, 0⟩] :=
  C2_unthrottled_deadline 3 0 ⟨0, 1, 0⟩ [] [] [] 8
    ⟨[], [((4 : Int), ⟨0, 1, 0⟩)], [⟨0, 1, 0⟩, ⟨0, 1, 0⟩, ⟨0, 1, 0⟩, ⟨0, 1, 0⟩]⟩
    (by decide) (by decide) (by decide) (by decide) (by decide)

theorem c7_zero_period_aux :
    ∀ (fuel : Nat) (m : List (Subscription Nat)),
      scanGo false 3 fuel ⟨[], [((0 : Int), ⟨5, 0, 0⟩)], m⟩ = none := by
  intro fuel
  induction fuel with
  | zero =>
    intro m
    exact scanGo_zero false (by decide)
  | succ fuel ih =>
    intro m
    rw [scanGo_succ (by decide)]
    have hnd : nextDeadline false 3 fuel 0 (⟨5, 0, 0⟩ : Subscription Nat).period = some 0 := rfl
    rw [hnd]
    dsimp only
    rw [if_neg (by decide)]
    show scanGo false 3 fuel ⟨[], [((0 : Int), ⟨5, 0, 0⟩)], m ++ [⟨5, 0, 0⟩]⟩ = none
    exact ih (m ++ [⟨5, 0, 0⟩])

/-- C7 refuted as stated: the scheduler does accept a zero period (add does
not reject it), but a tick pass in which a zero-period item is due never
terminates: the node is reinserted at its unchanged deadline ahead of the
iterator and refired forever (and with throttling enabled the inner while
loop spins forever for any nonpositive period).  Here: slack 3, one item of
period 0 due at time 0 - no amount of fuel completes the pass. -/
theorem C7_counterexample :
    TickDiverges (⟨false, 3, 1, [((0 : Int), ⟨5, 0, 0⟩)], STREAMLINER_WAIT_IF_EMPTY⟩ :
      Streamliner Nat) 0 := by
  intro fuel
  rw [tick]
  have h : scanGo false ((0 : Int) + 3) fuel
      (⟨[], [((0 : Int), ⟨5, 0, 0⟩)], []⟩ : ScanState Nat) = none := c7_zero_period_aux fuel []
  rw [h]

/-- C7 (amended): add accepts a zero or negative period without rejection
(the new registration is inserted for any period), and with throttling
disabled a table whose periods are all strictly negative is scanned to
completion in one pass, each due item being reinserted at a deadline one
period earlier - before the iterator - so it re-fires every pass.  For a
period of exactly zero (either throttling mode), or a nonpositive period with
throttling enabled, a pass with the item due does not terminate, refuting the
termination part of the claim (see the counterexample). -/
theorem C7_degenerate_periods (st : Streamliner α) (now : Int) (d : α) (p : Int)
    (u : Int) (v r : List (Entry α)) (m : List (Subscription α))
    (hneg : ∀ e ∈ r, e.2.period < 0)
    (hv : ∀ e ∈ v, e.1 ≤ u) :
    ((now, ⟨d, p, st.identifier⟩) : Entry α) ∈ (add st now d p).1.entries ∧
    ∃ res : ScanState α, scanGo false u r.length ⟨v, r, m⟩ = some res ∧
      ∀ e ∈ res.visited, e.1 ≤ u := by
  constructor
  · show _ ∈ insertUB (now, ⟨d, p, st.identifier⟩) st.entries
    exact mem_insertUB.2 (Or.inl rfl)
  · exact scanGo_negative_periods r v m hneg hv

/-- C7 witness: a period of minus two is accepted by add and a table holding
only that item is scanned to completion, the item ending up due again. -/
theorem C7_witness :
    ((0, ⟨7, -2, 0⟩) : Entry Nat) ∈ (add (mkStreamliner Nat 3 false) 0 7 (-2)).1.entries ∧
    ∃ res : ScanState Nat,
      scanGo false 3 [((0 : Int), (⟨7, -2, 0⟩ : Subscription Nat))].length
        ⟨[], [((0 : Int), ⟨7, -2, 0⟩)], []⟩ = some res ∧
      ∀ e ∈ res.visited, e.1 ≤ 3 :=
  C7_degenerate_periods (mkStreamliner Nat 3 false) 0 7 (-2) 3 []
    [((0 : Int), ⟨7, -2, 0⟩)] [] (by decide) (by decide)

end RoutineStreamliner
